import Mathlib

/-!
Shallow embedding of the AnyIx codec and dispatcher (src/lib.rs).

Bytes are modelled as Nat values; u8 machine arithmetic appears as explicit
mod 256 where the source performs a truncating cast or wrapping add.
A Rust operation that can panic (slice::split_at with an out-of-range
midpoint, Vec/slice indexing out of bounds, try_into().unwrap(),
an explicit panic) is modelled by a dedicated failure constructor,
kept distinct from a returned error value.
-/

namespace Anyix

/-- The solana_program ProgramError variants the source uses:
InvalidInstructionData is returned by unpack on empty input; any other
error can come back from the external invoke primitive. -/
inductive ProgramError where
  | invalidInstructionData
  | custom (n : Nat)
deriving DecidableEq

/-- The AnyIx struct of the source: one u8 count and three parallel vectors. -/
structure AnyIx where
  num_instructions : Nat
  instruction_data_sizes : List Nat
  instruction_account_counts : List Nat
  instruction_datas : List (List Nat)
deriving DecidableEq

/-- Result of AnyIx::unpack, with a separate constructor for a Rust panic
(split_at out of bounds), which is not a returned error. -/
inductive UnpackResult where
  | ok (a : AnyIx)
  | err (e : ProgramError)
  | panicked
deriving DecidableEq

/-- Rust slice::split_at: returns the two halves when the midpoint is in
bounds and panics (here: none) otherwise. -/
def splitAtChecked (l : List Nat) (n : Nat) : Option (List Nat × List Nat) :=
  if n ≤ l.length then some (l.take n, l.drop n) else none

/-- AnyIx::unpack_u8_slice: Ok(input.split_at(count)); the split itself can
panic on short input. -/
def unpack_u8_slice (input : List Nat) (count : Nat) :
    Option (List Nat × List Nat) :=
  splitAtChecked input count

/-- The payload-extraction loop of AnyIx::unpack: for each size entry,
data.split_at(size) (panicking when short), collecting the payloads and
threading the remaining bytes. -/
def unpackDatas : List Nat → List Nat → Option (List (List Nat) × List Nat)
  | [], data => some ([], data)
  | s :: rest, data =>
    if s ≤ data.length then
      match unpackDatas rest (data.drop s) with
      | some (ds, remaining) => some (data.take s :: ds, remaining)
      | none => none
    else none

/-- AnyIx::unpack from the source, step for step: empty-input check, one
byte of num_instructions, two header arrays of that length, then the
payloads. Each split_at that would read past the end is a panic, not an
error return. -/
def AnyIx.unpack (input : List Nat) : UnpackResult :=
  if input.isEmpty then .err .invalidInstructionData
  else
    match unpack_u8_slice input 1 with
    | none => .panicked
    | some (numSlice, data) =>
      let n := numSlice.headD 0
      match unpack_u8_slice data n with
      | none => .panicked
      | some (sizes, data1) =>
        match unpack_u8_slice data1 n with
        | none => .panicked
        | some (counts, data2) =>
          match unpackDatas sizes data2 with
          | none => .panicked
          | some (datas, _) => .ok ⟨n, sizes, counts, datas⟩

/-- AnyIx::pack: the count byte, the two header arrays, then the payloads,
concatenated with no delimiters. -/
def AnyIx.pack (a : AnyIx) : List Nat :=
  a.num_instructions :: (a.instruction_data_sizes ++
    (a.instruction_account_counts ++ a.instruction_datas.flatten))

/-- solana AccountInfo as the dispatcher reads it: a key plus the signer
and writable flags. -/
structure AccountInfo where
  key : Nat
  is_signer : Bool
  is_writable : Bool
deriving DecidableEq

/-- solana AccountMeta. -/
structure AccountMeta where
  pubkey : Nat
  is_signer : Bool
  is_writable : Bool
deriving DecidableEq

/-- AccountMeta::new marks the account writable. -/
def AccountMeta.new (pubkey : Nat) (is_signer : Bool) : AccountMeta :=
  ⟨pubkey, is_signer, true⟩

/-- AccountMeta::new_readonly marks the account not writable. -/
def AccountMeta.new_readonly (pubkey : Nat) (is_signer : Bool) : AccountMeta :=
  ⟨pubkey, is_signer, false⟩

/-- solana Instruction: target program, account metas, data bytes. -/
structure Instruction where
  program_id : Nat
  accounts : List AccountMeta
  data : List Nat
deriving DecidableEq

/-- The per-account closure in handle_anyix: writable accounts go through
AccountMeta::new, the rest through AccountMeta::new_readonly, both keeping
the account key and signer flag. -/
def toMeta (account : AccountInfo) : AccountMeta :=
  if account.is_writable then AccountMeta.new account.key account.is_signer
  else AccountMeta.new_readonly account.key account.is_signer

/-- The ways the dispatch loop can panic: an out-of-range slice bound,
indexing an empty slice or a too-short Vec, the explicit self-invocation
panic, and the unwrap of a failed unpack. -/
inductive PanicKind where
  | sliceBounds
  | indexOutOfBounds
  | selfInvocation
  | unwrapFailed
deriving DecidableEq

/-- Result of handle_anyix: Ok, a propagated invoke error, or a panic. -/
inductive DispatchResult where
  | ok
  | err (e : ProgramError)
  | panicked (k : PanicKind)
deriving DecidableEq

/-- The dispatch loop of handle_anyix, one constructor per iteration count.
Mirrors the source exactly, including its use of
instruction_account_counts[idx] as the absolute upper slice bound
(accounts[offset..counts[idx]]) and the wrapping u8 update of offset.
The external invoke primitive is the oracle exec, indexed by the
sub-operation index; the second component records each Instruction actually
handed to it, in call order. -/
def dispatchGo (program_id : Nat) (accounts : List AccountInfo)
    (counts : List Nat) (datas : List (List Nat))
    (exec : Nat → Option ProgramError) :
    Nat → Nat → Nat → DispatchResult × List Instruction
  | 0, _, _ => (.ok, [])
  | fuel + 1, idx, offset =>
    match counts[idx]? with
    | none => (.panicked .indexOutOfBounds, [])
    | some c =>
      if offset ≤ c ∧ c ≤ accounts.length then
        match (accounts.drop offset).take (c - offset) with
        | [] => (.panicked .indexOutOfBounds, [])
        | program_account :: rest =>
          if program_id = program_account.key then
            (.panicked .selfInvocation, [])
          else
            match datas[idx]? with
            | none => (.panicked .indexOutOfBounds, [])
            | some d =>
              match exec idx with
              | some e => (.err e, [⟨program_account.key, rest.map toMeta, d⟩])
              | none =>
                let r := dispatchGo program_id accounts counts datas exec
                  fuel (idx + 1) ((offset + c) % 256)
                (r.1, ⟨program_account.key, rest.map toMeta, d⟩ :: r.2)
      else (.panicked .sliceBounds, [])

/-- Dispatch of a decoded AnyIx value: the loop over 0..num_instructions
with offset starting at 0. -/
def dispatchAnyIx (program_id : Nat) (accounts : List AccountInfo)
    (a : AnyIx) (exec : Nat → Option ProgramError) :
    DispatchResult × List Instruction :=
  dispatchGo program_id accounts a.instruction_account_counts
    a.instruction_datas exec a.num_instructions 0 0

/-- handle_anyix: AnyIx::unpack(data).unwrap() followed by the dispatch
loop; a failed unpack is a panic via unwrap. -/
def handle_anyix (program_id : Nat) (accounts : List AccountInfo)
    (data : List Nat) (exec : Nat → Option ProgramError) :
    DispatchResult × List Instruction :=
  match AnyIx.unpack data with
  | .ok a => dispatchAnyIx program_id accounts a exec
  | _ => (.panicked .unwrapFailed, [])

/-- Result of encode_instructions, with a separate constructor for the
try_into().unwrap() panic on an oversized length. -/
inductive EncodeResult where
  | ok (a : AnyIx)
  | panicked
deriving DecidableEq

/-- usize to u8 via try_into: succeeds only up to 255. -/
def tryIntoU8 (n : Nat) : Option Nat := if n ≤ 255 then some n else none

/-- The iter().map(...try_into().unwrap()).collect() pattern of
encode_instructions: per element, an oversized length is a panic (none). -/
def mapU8 (f : Instruction → Nat) : List Instruction → Option (List Nat)
  | [] => some []
  | ix :: rest =>
    match tryIntoU8 (f ix) with
    | none => none
    | some b =>
      match mapU8 f rest with
      | none => none
      | some bs => some (b :: bs)

/-- encode_instructions from the source: data sizes and account counts go
through try_into::<u8>().unwrap() (panic above 255), while the instruction
count is truncated silently by the cast ixs.len() as u8, modelled as
mod 256. -/
def encode_instructions (ixs : List Instruction) : EncodeResult :=
  match mapU8 (fun ix => ix.data.length) ixs with
  | none => .panicked
  | some ix_data_sizes =>
    match mapU8 (fun ix => ix.accounts.length) ixs with
    | none => .panicked
    | some ix_account_counts =>
      .ok ⟨ixs.length % 256, ix_data_sizes, ix_account_counts,
        ixs.map (fun ix => ix.data)⟩

/-- Auxiliary: the map-with-unwrap over a constant list succeeds elementwise
when the single element's length fits in a u8. -/
theorem mapU8_replicate (f : Instruction → Nat) (ix : Instruction) (b : Nat)
    (h : tryIntoU8 (f ix) = some b) :
    ∀ n, mapU8 f (List.replicate n ix) = some (List.replicate n b) := by
  intro n
  induction n with
  | zero => simp [mapU8]
  | succ m ih => simp [List.replicate_succ, mapU8, h, ih]

/-- Auxiliary: a successful checked split is the take and the drop at an
in-bounds midpoint. -/
theorem splitAtChecked_eq_some {l : List Nat} {n : Nat} {x y : List Nat}
    (h : splitAtChecked l n = some (x, y)) :
    n ≤ l.length ∧ x = l.take n ∧ y = l.drop n := by
  unfold splitAtChecked at h
  split at h
  · simp only [Option.some.injEq, Prod.mk.injEq] at h
    exact ⟨by assumption, h.1.symm, h.2.symm⟩
  · simp at h

/-- Auxiliary: a successful payload-extraction loop yields exactly one
payload per size entry, each payload of its recorded length. -/
theorem unpackDatas_eq_some :
    ∀ (sizes data : List Nat) (ds : List (List Nat)) (rem : List Nat),
      unpackDatas sizes data = some (ds, rem) →
      ds.length = sizes.length ∧
        ∀ i, (ds.getD i []).length = sizes.getD i 0
  | [], data, ds, rem, h => by
    simp only [unpackDatas, Option.some.injEq, Prod.mk.injEq] at h
    obtain ⟨rfl, rfl⟩ := h
    refine ⟨rfl, fun i => ?_⟩
    cases i <;> rfl
  | s :: rest, data, ds, rem, h => by
    simp only [unpackDatas] at h
    split at h
    · cases hrec : unpackDatas rest (data.drop s) with
      | none => rw [hrec] at h; simp at h
      | some p =>
        obtain ⟨ds1, rem1⟩ := p
        rw [hrec] at h
        simp only [Option.some.injEq, Prod.mk.injEq] at h
        obtain ⟨hds, hrem⟩ := h
        subst hds
        obtain ⟨hlen, hall⟩ := unpackDatas_eq_some rest (data.drop s) ds1 rem1 hrec
        refine ⟨by simp [hlen], fun i => ?_⟩
        cases i with
        | zero =>
          simp only [List.getD_cons_zero, List.length_take]
          omega
        | succ j => simpa using hall j
    · simp at h

/-- C10: every batch decode returns successfully satisfies the parallel
array invariants: the two header arrays and the payload list each have
length num_instructions, and each payload has its recorded size (beyond
the arrays both sides of the last equation degenerate to 0). -/
theorem unpack_invariants (input : List Nat) (a : AnyIx)
    (h : AnyIx.unpack input = .ok a) :
    a.instruction_data_sizes.length = a.num_instructions ∧
    a.instruction_account_counts.length = a.num_instructions ∧
    a.instruction_datas.length = a.num_instructions ∧
    ∀ i, (a.instruction_datas.getD i []).length =
      a.instruction_data_sizes.getD i 0 := by
  unfold AnyIx.unpack at h
  split at h
  · simp at h
  · cases h1 : unpack_u8_slice input 1 with
    | none => simp only [h1] at h; exact UnpackResult.noConfusion h
    | some p1 =>
      obtain ⟨numSlice, data⟩ := p1
      simp only [h1] at h
      cases h2 : unpack_u8_slice data (numSlice.headD 0) with
      | none => simp only [h2] at h; exact UnpackResult.noConfusion h
      | some p2 =>
        obtain ⟨sizes, data1⟩ := p2
        simp only [h2] at h
        cases h3 : unpack_u8_slice data1 (numSlice.headD 0) with
        | none => simp only [h3] at h; exact UnpackResult.noConfusion h
        | some p3 =>
          obtain ⟨counts, data2⟩ := p3
          simp only [h3] at h
          cases h4 : unpackDatas sizes data2 with
          | none => simp only [h4] at h; exact UnpackResult.noConfusion h
          | some p4 =>
            obtain ⟨datas, data3⟩ := p4
            simp only [h4, UnpackResult.ok.injEq] at h
            subst h
            have hs2 : splitAtChecked data (numSlice.headD 0)
                = some (sizes, data1) := h2
            have hs3 : splitAtChecked data1 (numSlice.headD 0)
                = some (counts, data2) := h3
            obtain ⟨hle2, hx2, -⟩ := splitAtChecked_eq_some hs2
            obtain ⟨hle3, hx3, -⟩ := splitAtChecked_eq_some hs3
            obtain ⟨hdl, hdall⟩ :=
              unpackDatas_eq_some sizes data2 datas data3 h4
            have hsl : sizes.length = numSlice.headD 0 := by
              rw [hx2, List.length_take]; exact Nat.min_eq_left hle2
            have hcl : counts.length = numSlice.headD 0 := by
              rw [hx3, List.length_take]; exact Nat.min_eq_left hle3
            exact ⟨hsl, hcl, by rw [hdl, hsl], hdall⟩

/-- Witness for C10 at a concrete buffer: the batch decoded from
[1, 1, 1, 9] has one payload of the one recorded size. -/
theorem unpack_invariants_witness :
    (⟨1, [1], [1], [[9]]⟩ : AnyIx).instruction_datas.length
      = (⟨1, [1], [1], [[9]]⟩ : AnyIx).num_instructions ∧
    ((⟨1, [1], [1], [[9]]⟩ : AnyIx).instruction_datas.getD 0 []).length
      = (⟨1, [1], [1], [[9]]⟩ : AnyIx).instruction_data_sizes.getD 0 0 := by
  have h := unpack_invariants [1, 1, 1, 9] ⟨1, [1], [1], [[9]]⟩ (by decide)
  exact ⟨h.2.2.1, h.2.2.2 0⟩

/-- Auxiliary: the payload loop inverts concatenation: reading payloads of
the recorded lengths back from their concatenation (plus any trailing
bytes) returns exactly the payloads. -/
theorem unpackDatas_flatten :
    ∀ (ds : List (List Nat)) (rest : List Nat),
      unpackDatas (ds.map List.length) (ds.flatten ++ rest) = some (ds, rest)
  | [], rest => by simp [unpackDatas]
  | d :: ds, rest => by
    simp only [List.map_cons, List.flatten_cons, List.append_assoc,
      unpackDatas]
    rw [if_pos (by simp), List.drop_left, List.take_left,
      unpackDatas_flatten ds rest]

/-- C5: encode then decode round-trips: for every batch whose parallel
arrays all have length num_instructions and whose payloads have their
recorded sizes, unpack of pack succeeds and returns the batch unchanged. -/
theorem decode_encode_roundtrip (a : AnyIx)
    (h1 : a.instruction_data_sizes.length = a.num_instructions)
    (h2 : a.instruction_account_counts.length = a.num_instructions)
    (h3 : a.instruction_datas.length = a.num_instructions)
    (h4 : ∀ i, i < a.num_instructions →
      (a.instruction_datas.getD i []).length =
        a.instruction_data_sizes.getD i 0) :
    AnyIx.unpack (AnyIx.pack a) = .ok a := by
  obtain ⟨n, sizes, counts, datas⟩ := a
  simp only at h1 h2 h3 h4
  have hmap : sizes = datas.map List.length := by
    apply List.ext_getElem (by simp [h1, h3])
    intro i hi1 hi2
    have hin : i < n := by rw [← h1]; exact hi1
    have hid : i < datas.length := by rw [h3]; exact hin
    have hgd := h4 i hin
    rw [List.getD_eq_getElem datas [] hid,
      List.getD_eq_getElem sizes 0 hi1] at hgd
    simp [← hgd]
  have e1 : unpack_u8_slice (n :: (sizes ++ (counts ++ datas.flatten))) 1
      = some ([n], sizes ++ (counts ++ datas.flatten)) := by
    simp [unpack_u8_slice, splitAtChecked]
  have e2 : unpack_u8_slice (sizes ++ (counts ++ datas.flatten)) n
      = some (sizes, counts ++ datas.flatten) := by
    unfold unpack_u8_slice splitAtChecked
    rw [if_pos (by simp [h1]), List.take_left' h1, List.drop_left' h1]
  have e3 : unpack_u8_slice (counts ++ datas.flatten) n
      = some (counts, datas.flatten) := by
    unfold unpack_u8_slice splitAtChecked
    rw [if_pos (by simp [h2]), List.take_left' h2, List.drop_left' h2]
  have e4 : unpackDatas sizes datas.flatten = some (datas, []) := by
    rw [hmap]
    simpa using unpackDatas_flatten datas []
  have e0 : AnyIx.pack ⟨n, sizes, counts, datas⟩
      = n :: (sizes ++ (counts ++ datas.flatten)) := rfl
  rw [e0]
  unfold AnyIx.unpack
  rw [if_neg (by simp)]
  simp only [e1, e2, e3, e4, List.headD_cons]

/-- Witness for C5 at a concrete batch of two sub-operations, one with a
one-byte payload and one with an empty payload. -/
theorem decode_encode_roundtrip_witness :
    AnyIx.unpack (AnyIx.pack ⟨2, [1, 0], [3, 4], [[9], []]⟩)
      = .ok ⟨2, [1, 0], [3, 4], [[9], []]⟩ :=
  decode_encode_roundtrip ⟨2, [1, 0], [3, 4], [[9], []]⟩
    (by decide) (by decide) (by decide) (by decide)

/-- Auxiliary: if call number k of the loop was made and the executor
fails it, the loop returns exactly that failure and the failing call is
the last one made. -/
theorem dispatchGo_err_last (pid : Nat) (accs : List AccountInfo)
    (counts : List Nat) (datas : List (List Nat))
    (exec : Nat → Option ProgramError) :
    ∀ (fuel idx offset k : Nat) (e : ProgramError),
      k < (dispatchGo pid accs counts datas exec fuel idx offset).2.length →
      exec (idx + k) = some e →
      (dispatchGo pid accs counts datas exec fuel idx offset).1 = .err e ∧
      (dispatchGo pid accs counts datas exec fuel idx offset).2.length
        = k + 1 := by
  intro fuel
  induction fuel with
  | zero => intro idx off k e hk hex; simp [dispatchGo] at hk
  | succ m ih =>
    intro idx off k e hk hex
    simp only [dispatchGo] at hk ⊢
    cases hc : counts[idx]? with
    | none => simp [hc] at hk
    | some c =>
      simp only [hc] at hk ⊢
      by_cases hb : off ≤ c ∧ c ≤ accs.length
      · rw [if_pos hb] at hk ⊢
        cases hsl : (accs.drop off).take (c - off) with
        | nil => simp [hsl] at hk
        | cons pa rest =>
          simp only [hsl] at hk ⊢
          by_cases hp : pid = pa.key
          · rw [if_pos hp] at hk; simp at hk
          · rw [if_neg hp] at hk ⊢
            cases hd : datas[idx]? with
            | none => simp [hd] at hk
            | some d =>
              simp only [hd] at hk ⊢
              cases hx : exec idx with
              | some e0 =>
                simp only [hx] at hk ⊢
                simp only [List.length_cons, List.length_nil] at hk
                have hk0 : k = 0 := by omega
                subst hk0
                rw [Nat.add_zero] at hex
                rw [hex] at hx
                injection hx with he
                exact ⟨by rw [he], rfl⟩
              | none =>
                simp only [hx] at hk ⊢
                cases k with
                | zero =>
                  rw [Nat.add_zero] at hex
                  rw [hex] at hx
                  exact Option.noConfusion hx
                | succ k1 =>
                  have hk1 : k1 < (dispatchGo pid accs counts datas exec m
                      (idx + 1) ((off + c) % 256)).2.length := by
                    simpa using hk
                  have hex1 : exec ((idx + 1) + k1) = some e := by
                    rw [← hex]; congr 1; omega
                  obtain ⟨ha1, ha2⟩ :=
                    ih (idx + 1) ((off + c) % 256) k1 e hk1 hex1
                  exact ⟨ha1, by simp [ha2]⟩
      · rw [if_neg hb] at hk; simp at hk

/-- Auxiliary: a loop run that returns Ok made exactly one call per
remaining iteration and every one of those calls succeeded. -/
theorem dispatchGo_ok_all (pid : Nat) (accs : List AccountInfo)
    (counts : List Nat) (datas : List (List Nat))
    (exec : Nat → Option ProgramError) :
    ∀ (fuel idx offset : Nat),
      (dispatchGo pid accs counts datas exec fuel idx offset).1 = .ok →
      (dispatchGo pid accs counts datas exec fuel idx offset).2.length
          = fuel ∧
        ∀ k, k < fuel → exec (idx + k) = none := by
  intro fuel
  induction fuel with
  | zero => intro idx off hok; exact ⟨rfl, fun k hk => absurd hk (by omega)⟩
  | succ m ih =>
    intro idx off hok
    simp only [dispatchGo] at hok ⊢
    cases hc : counts[idx]? with
    | none => rw [hc] at hok; exact DispatchResult.noConfusion hok
    | some c =>
      simp only [hc] at hok ⊢
      by_cases hb : off ≤ c ∧ c ≤ accs.length
      · rw [if_pos hb] at hok ⊢
        cases hsl : (accs.drop off).take (c - off) with
        | nil => rw [hsl] at hok; exact DispatchResult.noConfusion hok
        | cons pa rest =>
          simp only [hsl] at hok ⊢
          by_cases hp : pid = pa.key
          · rw [if_pos hp] at hok; exact DispatchResult.noConfusion hok
          · rw [if_neg hp] at hok ⊢
            cases hd : datas[idx]? with
            | none => rw [hd] at hok; exact DispatchResult.noConfusion hok
            | some d =>
              simp only [hd] at hok ⊢
              cases hx : exec idx with
              | some e0 =>
                rw [hx] at hok; exact DispatchResult.noConfusion hok
              | none =>
                simp only [hx] at hok ⊢
                obtain ⟨hl, hall⟩ := ih (idx + 1) ((off + c) % 256)
                  (by simpa using hok)
                refine ⟨by simp [hl], fun k hk => ?_⟩
                cases k with
                | zero => rw [Nat.add_zero]; exact hx
                | succ k1 =>
                  have := hall k1 (by omega)
                  rw [← this]; congr 1; omega
      · rw [if_neg hb] at hok; exact DispatchResult.noConfusion hok

/-- C6: dispatch is fail-fast: if the executor reports failure for an
invoked sub-operation i, that failure is the overall result and the trace
stops at i; and an overall success means every one of the batch's
num_instructions sub-operations was invoked and none failed. -/
theorem dispatch_fail_fast (pid : Nat) (accs : List AccountInfo)
    (a : AnyIx) (exec : Nat → Option ProgramError) :
    (∀ i e, i < (dispatchAnyIx pid accs a exec).2.length →
      exec i = some e →
      (dispatchAnyIx pid accs a exec).1 = .err e ∧
      (dispatchAnyIx pid accs a exec).2.length = i + 1) ∧
    ((dispatchAnyIx pid accs a exec).1 = .ok →
      (dispatchAnyIx pid accs a exec).2.length = a.num_instructions ∧
      ∀ i, i < a.num_instructions → exec i = none) := by
  constructor
  · intro i e hi hex
    exact dispatchGo_err_last pid accs a.instruction_account_counts
      a.instruction_datas exec a.num_instructions 0 0 i e hi
      (by simpa using hex)
  · intro hok
    obtain ⟨hl, hall⟩ := dispatchGo_ok_all pid accs
      a.instruction_account_counts a.instruction_datas exec
      a.num_instructions 0 0 hok
    exact ⟨hl, fun i hi => by simpa using hall i hi⟩

/-- Witness for C6 at a concrete two-operation batch whose executor fails
the first call: dispatch returns that failure after exactly one call. -/
theorem dispatch_fail_fast_witness :
    (dispatchAnyIx 1 [⟨2, false, false⟩, ⟨3, false, false⟩]
        ⟨2, [0, 0], [1, 2], [[], []]⟩
        (fun i => if i = 0 then some (.custom 5) else none)).1
      = .err (.custom 5) ∧
    (dispatchAnyIx 1 [⟨2, false, false⟩, ⟨3, false, false⟩]
        ⟨2, [0, 0], [1, 2], [[], []]⟩
        (fun i => if i = 0 then some (.custom 5) else none)).2.length
      = 0 + 1 :=
  (dispatch_fail_fast 1 [⟨2, false, false⟩, ⟨3, false, false⟩]
      ⟨2, [0, 0], [1, 2], [[], []]⟩
      (fun i => if i = 0 then some (.custom 5) else none)).1
    0 (.custom 5) (by decide) (by decide)

/-- Auxiliary: every account meta inside any instruction the loop hands to
the executor is toMeta of some account of the supplied handle list. -/
theorem dispatchGo_metas (pid : Nat) (accs : List AccountInfo)
    (counts : List Nat) (datas : List (List Nat))
    (exec : Nat → Option ProgramError) :
    ∀ (fuel idx offset : Nat) (inst : Instruction) (m : AccountMeta),
      inst ∈ (dispatchGo pid accs counts datas exec fuel idx offset).2 →
      m ∈ inst.accounts →
      ∃ acc, acc ∈ accs ∧ m = toMeta acc := by
  intro fuel
  induction fuel with
  | zero => intro idx off inst m hinst hm; simp [dispatchGo] at hinst
  | succ n ih =>
    intro idx off inst m hinst hm
    simp only [dispatchGo] at hinst
    cases hc : counts[idx]? with
    | none => simp [hc] at hinst
    | some c =>
      simp only [hc] at hinst
      by_cases hb : off ≤ c ∧ c ≤ accs.length
      · rw [if_pos hb] at hinst
        cases hsl : (accs.drop off).take (c - off) with
        | nil => simp [hsl] at hinst
        | cons pa rest =>
          have hrest : ∀ x, x ∈ rest → x ∈ accs := by
            intro x hx
            have hx2 : x ∈ (accs.drop off).take (c - off) := by
              rw [hsl]; exact List.mem_cons_of_mem pa hx
            exact List.drop_subset off accs (List.take_subset _ _ hx2)
          simp only [hsl] at hinst
          by_cases hp : pid = pa.key
          · rw [if_pos hp] at hinst; simp at hinst
          · rw [if_neg hp] at hinst
            cases hd : datas[idx]? with
            | none => simp [hd] at hinst
            | some d =>
              simp only [hd] at hinst
              cases hx : exec idx with
              | some e0 =>
                simp only [hx, List.mem_singleton] at hinst
                subst hinst
                simp only [List.mem_map] at hm
                obtain ⟨acc, hacc, hmeq⟩ := hm
                exact ⟨acc, hrest acc hacc, hmeq.symm⟩
              | none =>
                simp only [hx, List.mem_cons] at hinst
                cases hinst with
                | inl hinst =>
                  subst hinst
                  simp only [List.mem_map] at hm
                  obtain ⟨acc, hacc, hmeq⟩ := hm
                  exact ⟨acc, hrest acc hacc, hmeq.symm⟩
                | inr hinst =>
                  exact ih (idx + 1) ((off + c) % 256) inst m hinst hm
      · rw [if_neg hb] at hinst; simp at hinst

/-- C9: authority is carried, never elevated: every account meta the
dispatcher forwards to the executor in any invoked instruction has
exactly the key, signer flag and writable flag of an account of the
supplied handle list. -/
theorem authority_carried (pid : Nat) (accs : List AccountInfo)
    (a : AnyIx) (exec : Nat → Option ProgramError)
    (inst : Instruction) (m : AccountMeta)
    (hinst : inst ∈ (dispatchAnyIx pid accs a exec).2)
    (hm : m ∈ inst.accounts) :
    ∃ acc, acc ∈ accs ∧ m.pubkey = acc.key ∧
      m.is_signer = acc.is_signer ∧ m.is_writable = acc.is_writable := by
  obtain ⟨acc, hacc, hmeq⟩ := dispatchGo_metas pid accs
    a.instruction_account_counts a.instruction_datas exec
    a.num_instructions 0 0 inst m hinst hm
  subst hmeq
  obtain ⟨k, s, w⟩ := acc
  refine ⟨⟨k, s, w⟩, hacc, ?_⟩
  cases w <;>
    simp [toMeta, AccountMeta.new, AccountMeta.new_readonly]

/-- Witness for C9 at a concrete batch: the forwarded meta for the
read-only signing account with key 3 keeps exactly its flags. -/
theorem authority_carried_witness :
    ∃ acc, acc ∈ [(⟨2, false, false⟩ : AccountInfo), ⟨3, true, false⟩] ∧
      (⟨3, true, false⟩ : AccountMeta).pubkey = acc.key ∧
      (⟨3, true, false⟩ : AccountMeta).is_signer = acc.is_signer ∧
      (⟨3, true, false⟩ : AccountMeta).is_writable = acc.is_writable :=
  authority_carried 1 [⟨2, false, false⟩, ⟨3, true, false⟩]
    ⟨1, [0], [2], [[]]⟩ (fun _ => none) ⟨2, [⟨3, true, false⟩], []⟩
    ⟨3, true, false⟩ (by decide) (by decide)

/-- C7: decoding the empty byte buffer fails with the FormatError
(InvalidInstructionData): the operation_count byte cannot be read. -/
theorem unpack_nil_format_error :
    AnyIx.unpack [] = .err .invalidInstructionData := rfl

/-- C2: decode is not panic-free: on the truncated buffer [1] (count byte 1
followed by no header bytes) unpack hits split_at out of bounds, a Rust
panic, rather than returning a FormatError. -/
theorem unpack_truncated_panics :
    AnyIx.unpack [1] = .panicked ∧
    AnyIx.unpack [1] ≠ .err .invalidInstructionData := by decide

/-- C8: decoding [0] succeeds with the empty batch, and dispatching the
empty batch, for every identity, handle list and executor, makes no
external call and returns success. -/
theorem zero_op_batch (pid : Nat) (accs : List AccountInfo)
    (exec : Nat → Option ProgramError) :
    AnyIx.unpack [0] = .ok ⟨0, [], [], []⟩ ∧
    dispatchAnyIx pid accs ⟨0, [], [], []⟩ exec = (.ok, []) :=
  ⟨rfl, rfl⟩

/-- C4: a batch whose sub-operation 0 targets the dispatcher itself does
stop before any external call (the trace is empty even though the executor
always succeeds), but by the explicit panic of the source, not by a typed
recoverable SelfTargetViolation error. -/
theorem self_target_panics :
    dispatchAnyIx 7 [⟨7, false, false⟩] ⟨1, [0], [1], [[]]⟩ (fun _ => none)
      = (.panicked .selfInvocation, []) := by decide

/-- C1: with handle_counts = [2, 3] and five handles, the absolute slice
bound accounts[offset..counts[idx]] of the source hands sub-operation 1
only the handle at index 2: its outbound call carries no resource handles,
instead of the handles at indices 3 and 4 that offset-relative slicing
would forward. -/
theorem absolute_slice_bound_bug :
    dispatchAnyIx 99
      [⟨10, false, false⟩, ⟨11, false, false⟩, ⟨12, false, false⟩,
        ⟨13, false, false⟩, ⟨14, false, false⟩]
      ⟨2, [0, 0], [2, 3], [[], []]⟩ (fun _ => none)
      = (.ok, [⟨10, [⟨11, false, false⟩], []⟩, ⟨12, [], []⟩]) := by decide

set_option maxRecDepth 4096 in
/-- C3: construction does not reject oversized input with a typed
LimitExceeded error: 256 sub-operations are accepted with the count
silently wrapped to 0 by the cast ixs.len() as u8, and a single 256-byte
payload is a panic via try_into().unwrap(), not an error value. -/
theorem encode_limit_violations :
    encode_instructions (List.replicate 256 ⟨0, [], []⟩)
      = .ok ⟨0, List.replicate 256 0, List.replicate 256 0,
          List.replicate 256 []⟩ ∧
    encode_instructions [⟨0, [], List.replicate 256 0⟩] = .panicked := by
  constructor
  · have h1 := mapU8_replicate (fun ix => ix.data.length) ⟨0, [], []⟩ 0
      (by decide) 256
    have h2 := mapU8_replicate (fun ix => ix.accounts.length) ⟨0, [], []⟩ 0
      (by decide) 256
    simp only [encode_instructions, h1, h2, List.map_replicate,
      List.length_replicate]
  · decide

end Anyix
